import Mathlib

/-! Verification of the DlyLoc passive TCP delay estimator (pollere/DlyLoc).

This file gives a shallow embedding of the measurement core of the
program (`dlyloc.cpp`, `flowDelay.hpp`, `movingmin.hpp`) and proves or
refutes the frozen claims about it.

Modelling conventions:
  * C++ `double` values (capture times, delay variations, slopes) are
    modelled as rationals `ℚ`; `int64_t` quantities (extended
    timestamps) as `ℤ`; `uint32_t` fields (raw TSval/ECR) as `ℕ`
    constrained to `< 2^32` at use sites.  No computation in any claim
    approaches `2^63`, so `int64_t` overflow is not modelled.
  * `std::unordered_map` is modelled as an association list with
    unique keys (insertions happen only after a failed lookup, exactly
    as in the source).  Iteration order of the map is unspecified in
    C++; the model iterates in list order.
  * Flow keys are pairs `(IPsrc, IPdst)` of `"addr:port"` strings.
    The source concatenates them with `"+"`; since the address/port
    strings never contain `'+'`, the concatenation is injective and
    the pair representation is faithful.  Likewise the TSval-table key
    `flow + "+" + tsval` is modelled as a pair `(Key × ℕ)`.
  * The `flowDly* rfp` peer pointer is modelled as the peer's flow key
    (`Option Key`); dereferencing is a table lookup.  The program's
    peer-consistency invariant (claim C6) ensures the pointed-to
    record is in the table whenever the pointer is followed.
-/

/-! ## Association-list primitives (model of `std::unordered_map`) -/

/-- Lookup in an association list: the value of the first entry with
the given key (`std::unordered_map::find`/`at`). -/
def lookupF {κ α : Type} [DecidableEq κ] : List (κ × α) → κ → Option α
  | [], _ => none
  | e :: l, k => if e.1 = k then some e.2 else lookupF l k

/-- Update every entry holding key `k` by `f` (mutation through an
iterator or pointer into the map; keys are unique in all reachable
states, so at most one entry changes). -/
def updF {κ α : Type} [DecidableEq κ] (l : List (κ × α)) (k : κ) (f : α → α) :
    List (κ × α) :=
  l.map (fun e => if e.1 = k then (e.1, f e.2) else e)

/-- Overwrite the value at key `k` (`map[k] = v` for a present key). -/
def setF {κ α : Type} [DecidableEq κ] (l : List (κ × α)) (k : κ) (v : α) :
    List (κ × α) :=
  updF l k (fun _ => v)

/-- Erase the entry with key `k` (`map.erase`); with unique keys this
removes exactly the one entry. -/
def eraseF {κ α : Type} [DecidableEq κ] (l : List (κ × α)) (k : κ) :
    List (κ × α) :=
  l.filter (fun e => ¬ (e.1 = k))

@[simp]
theorem lookupF_nil {κ α : Type} [DecidableEq κ] (k : κ) :
    lookupF ([] : List (κ × α)) k = none := rfl

@[simp]
theorem lookupF_cons {κ α : Type} [DecidableEq κ] (e : κ × α) (l : List (κ × α)) (k : κ) :
    lookupF (e :: l) k = if e.1 = k then some e.2 else lookupF l k := rfl

theorem lookupF_updF {κ α : Type} [DecidableEq κ] (l : List (κ × α)) (k j : κ) (f : α → α) :
    lookupF (updF l k f) j =
      if j = k then (lookupF l k).map f else lookupF l j := by
  induction l with
  | nil => by_cases hjk : j = k <;> simp [updF, hjk]
  | cons e l ih =>
    by_cases hek : e.1 = k
    · by_cases hjk : j = k
      · subst hjk; subst hek
        simp [updF, lookupF, ih]
      · have hej : ¬ (e.1 = j) := fun h => hjk (by rw [← h, hek])
        rw [show updF (e :: l) k f = (e.1, f e.2) :: updF l k f by simp [updF, hek]]
        simp only [lookupF_cons, if_neg hej, ih, if_neg hjk]
    · rw [show updF (e :: l) k f = e :: updF l k f by simp [updF, hek]]
      by_cases hej : e.1 = j
      · have hjk : ¬ (j = k) := fun h => hek (by rw [hej, h])
        simp only [lookupF_cons, if_pos hej, if_neg hjk]
      · simp only [lookupF_cons, if_neg hej, if_neg hek, ih]

theorem lookupF_eraseF {κ α : Type} [DecidableEq κ] (l : List (κ × α)) (k j : κ) :
    lookupF (eraseF l k) j = if j = k then none else lookupF l j := by
  induction l with
  | nil => by_cases hjk : j = k <;> simp [eraseF, hjk]
  | cons e l ih =>
    by_cases hek : e.1 = k
    · rw [show eraseF (e :: l) k = eraseF l k by simp [eraseF, List.filter_cons, hek]]
      rw [ih]
      by_cases hjk : j = k
      · rw [if_pos hjk, if_pos hjk]
      · have hej : ¬ (e.1 = j) := fun h => hjk (by rw [← h, hek])
        rw [if_neg hjk, if_neg hjk, lookupF_cons, if_neg hej]
    · rw [show eraseF (e :: l) k = e :: eraseF l k by simp [eraseF, List.filter_cons, hek]]
      by_cases hej : e.1 = j
      · have hjk : ¬ (j = k) := fun h => hek (by rw [hej, h])
        rw [lookupF_cons, if_pos hej, lookupF_cons, if_pos hej, if_neg hjk]
      · rw [lookupF_cons, if_neg hej, ih, lookupF_cons, if_neg hej]

theorem lookupF_eq_none_iff {κ α : Type} [DecidableEq κ] (l : List (κ × α)) (k : κ) :
    lookupF l k = none ↔ k ∉ l.map Prod.fst := by
  induction l with
  | nil => simp
  | cons e l ih =>
    by_cases h : e.1 = k
    · simp [lookupF, h]
    · rw [lookupF_cons, if_neg h, ih]
      simp only [List.map_cons, List.mem_cons, not_or]
      constructor
      · exact fun hk => ⟨fun hke => h hke.symm, hk⟩
      · exact fun hk => hk.2

@[simp]
theorem keys_updF {κ α : Type} [DecidableEq κ] (l : List (κ × α)) (k : κ) (f : α → α) :
    (updF l k f).map Prod.fst = l.map Prod.fst := by
  induction l with
  | nil => rfl
  | cons e l ih =>
    by_cases h : e.1 = k <;> simp [updF, h] at * <;> simpa [updF] using ih

@[simp]
theorem length_updF {κ α : Type} [DecidableEq κ] (l : List (κ × α)) (k : κ) (f : α → α) :
    (updF l k f).length = l.length := by
  simp [updF]

/-! ## TimestampExtender (`flowDelay.hpp`, `extendTS`)

State and step function of the 32-bit → 64-bit timestamp extension.
`tsWrap` holds two 64-bit offsets and the last 32-bit value seen. -/

/-- Wrap unit from the source: `const int64_t wrapCnt = 0x10000l;`. -/
def wrapCnt : ℤ := 0x10000

/-- Model of `struct tsWrap { int64_t offset[2]; uint32_t last; };` zero
initialised by the `flowDly` constructor. -/
structure tsWrap where
  offset0 : ℤ
  offset1 : ℤ
  last : ℕ
  deriving DecidableEq, Repr

def tsWrapInit : tsWrap := ⟨0, 0, 0⟩

/-- Model of `extendTS(uint32_t ts, tsWrap*)`: wrap is declared when
`(last & ~ts) >> 31` is non-zero (the complement of `ts` in 32 bits is
`2^32 - 1 - ts`).  On wrap `offset[1] := offset[0]` and
`offset[0] += wrapCnt`.  The returned value is `offset[ts >> 31] + ts`.
The argument is a `uint32_t`, i.e. callers pass `ts < 2^32`. -/
def extendTS (ts : ℕ) (w : tsWrap) : ℤ × tsWrap :=
  let w :=
    if (Nat.land w.last (2 ^ 32 - 1 - ts)) >>> 31 ≠ 0 then
      { w with offset1 := w.offset0, offset0 := w.offset0 + wrapCnt }
    else w
  let w := { w with last := ts }
  ((if ts >>> 31 = 0 then w.offset0 else w.offset1) + ts, w)

/-- C3 (code_bug): across a genuine 32-bit wrap the extender's output
DECREASES.  The two samples `0xFFFFFFFF, 0x00000005` are consecutive
readings of a monotone counter that wrapped modulo `2^32`, progressing
6 ticks (< 2^31), so the claim's premise holds; yet the second
extended value (`0x10000 + 5 = 65541`, because the offset advances by
`wrapCnt = 2^16` instead of `2^32`) is far below the first
(`0xFFFFFFFF`).  This confirms the defect the spec itself records in
§9 ("increments its offset by 2^16 rather than 2^32"). -/
theorem extendTS_wrap_not_monotone :
    (extendTS 0xFFFFFFFF tsWrapInit).1 = 0xFFFFFFFF ∧
    (extendTS 0x00000005 (extendTS 0xFFFFFFFF tsWrapInit).2).1 = 65541 ∧
    (extendTS 0x00000005 (extendTS 0xFFFFFFFF tsWrapInit).2).1 <
      (extendTS 0xFFFFFFFF tsWrapInit).1 := by
  refine ⟨by decide, by decide, by decide⟩

/-- C8 (confirmed): scenario S6.  Feeding TSvals
`0x7FFFFFF0, 0x7FFFFFFF, 0x80000001` to a fresh extender (no reset)
yields three strictly increasing 64-bit values.  (No wrap fires: the
high bit goes 0 → 1, which the predicate `(last & ~ts) >> 31` ignores;
the third value is served from `offset[1]`.) -/
theorem extendTS_s6_strictly_increasing :
    (extendTS 0x7FFFFFF0 tsWrapInit).1 <
      (extendTS 0x7FFFFFFF (extendTS 0x7FFFFFF0 tsWrapInit).2).1 ∧
    (extendTS 0x7FFFFFFF (extendTS 0x7FFFFFF0 tsWrapInit).2).1 <
      (extendTS 0x80000001
        (extendTS 0x7FFFFFFF (extendTS 0x7FFFFFF0 tsWrapInit).2).2).1 := by
  refine ⟨by decide, by decide⟩

/-! ## MovingMin (`movingmin.hpp`)

`movingMin` tracks the minimum of a stream of `(value, time)` samples
over a trailing window.  In `dlyloc` the value axis is capture time
(`double` → `ℚ`) and the time axis is the extended TSval
(`int64_t` → `ℤ`). -/

/-- Global `const int64_t interval = 100;` (global constant of
`movingmin.hpp`, used by `computeTicks` for its warm-up guard). -/
def interval : ℤ := 100

/-- Model of `struct movingMin`: the candidate-minima list `_minList`, the next
interval boundary `_nxtIntr` (a `double`), and the per-instance window
`_interval` and sub-interval `_sub` set by the constructor
`movingMin(double is, int64_t i) { _sub = i/is; }`. -/
structure movingMin where
  minList : List (ℚ × ℤ) := []
  nxtIntr : ℚ := 0
  intv : ℤ := 100
  sub : ℤ := 20
  deriving DecidableEq, Repr

/-- Model of `movingMin::addSample(v, t)`, translated clause by clause:
  * if the list is empty, or `v ≤ front.value`, or
    `t > back.time + _interval`, clear the list and keep `(v,t)`;
  * otherwise erase the prefix of entries with `time + _interval < t`
    (the source scans for the first index satisfying
    `time + _interval ≥ t` and erases everything before it; since the
    back always satisfies it here, that is `dropWhile`);
  * if `v > back.value`, append `(v,t)` only when
    `t > back.time + _sub`;
  * otherwise truncate at the first entry with `value ≥ v` (the source
    scans for the first `i` with `v ≤ value[i]` and `resize(i)`;
    such an `i` exists because `v ≤ back.value`, so this is
    `takeWhile (value < v)`) and append `(v,t)`. -/
def addSample (mm : movingMin) (v : ℚ) (t : ℤ) : movingMin :=
  if mm.minList = [] ∨ v ≤ (mm.minList.headD (v, t)).1 ∨
      (mm.minList.getLastD (v, t)).2 + mm.intv < t then
    { mm with minList := [(v, t)] }
  else
    let l₁ := mm.minList.dropWhile (fun q => decide (q.2 + mm.intv < t))
    if (l₁.getLastD (v, t)).1 < v then
      if (l₁.getLastD (v, t)).2 + mm.sub < t then
        { mm with minList := l₁ ++ [(v, t)] }
      else { mm with minList := l₁ }
    else
      { mm with minList := l₁.takeWhile (fun q => decide (q.1 < v)) ++ [(v, t)] }

/-- Model of `movingMin::newInterval(t)`: `false` when `t < _nxtIntr`;
otherwise advance `_nxtIntr` past `t` in `_interval` steps and return
`true`.  The source's `while(_nxtIntr <= t) _nxtIntr += _interval` is
rendered in closed form (the loop runs `⌊(t − _nxtIntr)/_interval⌋ + 1`
times; `_interval` is positive in every instance the program builds). -/
def newInterval (mm : movingMin) (t : ℤ) : Bool × movingMin :=
  if (t : ℚ) < mm.nxtIntr then (false, mm)
  else
    (true, { mm with
      nxtIntr := mm.nxtIntr +
        ((⌊((t : ℚ) - mm.nxtIntr) / (mm.intv : ℚ)⌋ + 1 : ℤ) : ℚ) * (mm.intv : ℚ) })

/-- Model of `movingMin::setFirstInterval(t)`: `_nxtIntr = t + _interval`. -/
def setFirstInterval (mm : movingMin) (t : ℤ) : movingMin :=
  { mm with nxtIntr := (t : ℚ) + (mm.intv : ℚ) }

/-- Model of `movingMin::intervalMin()`: the front entry of `_minList` (the
program only calls it with a non-empty list; the default is dead). -/
def intervalMin (mm : movingMin) : ℚ × ℤ := mm.minList.headD (0, 0)

/-- Deque invariant of claim C10, for window `I` after a call at time
`t`: the list is non-empty, values are strictly increasing and times
non-decreasing from front to back, and every stored time `t'`
satisfies `t' ≤ t` and `t ≤ t' + I` (all entries lie in the most
recent window). -/
def mmInv (I : ℤ) (t : ℤ) (l : List (ℚ × ℤ)) : Prop :=
  l ≠ [] ∧ l.Pairwise (fun a b => a.1 < b.1 ∧ a.2 ≤ b.2) ∧
    ∀ p ∈ l, p.2 ≤ t ∧ t ≤ p.2 + I

/-! ### Helper lemmas for the MovingMin invariant -/

theorem getLastD_mem {α : Type} : ∀ (l : List α) (d : α), l ≠ [] → l.getLastD d ∈ l
  | [], _, h => absurd rfl h
  | [a], d, _ => by simp
  | a :: b :: l', d, _ => by
    rw [List.getLastD_cons]
    exact List.mem_cons_of_mem a (getLastD_mem (b :: l') a (by simp))

theorem mem_rel_getLastD {α : Type} {R : α → α → Prop} :
    ∀ {l : List α}, l.Pairwise R → ∀ (d : α) (q : α), q ∈ l →
      q = l.getLastD d ∨ R q (l.getLastD d)
  | [], _, _, q, hq => absurd hq (by simp)
  | [a], _, d, q, hq => by
    rcases List.mem_singleton.mp hq with rfl
    simp
  | a :: b :: l', hp, d, q, hq => by
    rw [List.getLastD_cons]
    rcases List.pairwise_cons.mp hp with ⟨ha, hl⟩
    rcases List.mem_cons.mp hq with rfl | hq'
    · exact Or.inr (ha _ (getLastD_mem (b :: l') _ (by simp)))
    · exact mem_rel_getLastD hl a q hq'

theorem head_dropWhile_false {α : Type} (p : α → Bool) (l : List α) {q : α}
    {r : List α} (h : l.dropWhile p = q :: r) : p q = false := by
  induction l with
  | nil => simp [List.dropWhile] at h
  | cons a l ih =>
    rw [List.dropWhile_cons] at h
    split at h
    · exact ih h
    · rename_i hpa
      cases h
      simpa using hpa

theorem dropWhile_ne_nil_of_getLastD {α : Type} (p : α → Bool) (l : List α)
    (d : α) (hne : l ≠ []) (h : p (l.getLastD d) = false) :
    l.dropWhile p ≠ [] := by
  intro hc
  have := List.dropWhile_eq_nil_iff.mp hc _ (getLastD_mem l d hne)
  rw [h] at this
  exact Bool.false_ne_true this

/-- Single-call form of the MovingMin deque invariant: a call on an
empty list establishes it, a call at a time `t` no earlier than the
previous call's time preserves it, and under the invariant
`intervalMin` (the front entry) is minimal among all retained values.
Requires a non-negative window (`_interval = 50` in the instance
`dlyloc` constructs; `100` for the default constructor). -/
theorem addSample_mmInv (mm : movingMin) (v : ℚ) (t t₀ : ℤ)
    (hI : 0 ≤ mm.intv)
    (hprev : mm.minList = [] ∨ (mmInv mm.intv t₀ mm.minList ∧ t₀ ≤ t)) :
    mmInv mm.intv t (addSample mm v t).minList ∧
      ∀ p ∈ (addSample mm v t).minList,
        (intervalMin (addSample mm v t)).1 ≤ p.1 := by
  have hmin : ∀ l : List (ℚ × ℤ), l.Pairwise (fun a b => a.1 < b.1 ∧ a.2 ≤ b.2) →
      ∀ p ∈ l, (l.headD ((0 : ℚ), (0 : ℤ))).1 ≤ p.1 := by
    intro l hp p hpl
    cases l with
    | nil => cases hpl
    | cons q l' =>
      rw [List.headD_cons]
      rcases List.mem_cons.mp hpl with rfl | h'
      · exact le_refl _
      · exact le_of_lt ((List.pairwise_cons.mp hp).1 p h').1
  have hsing : mmInv mm.intv t [(v, t)] := by
    refine ⟨by simp, by simp, ?_⟩
    intro p hp
    rcases List.mem_singleton.mp hp with rfl
    exact ⟨le_refl _, by linarith⟩
  simp only [addSample, intervalMin]
  split
  · exact ⟨hsing, hmin _ hsing.2.1⟩
  · rename_i hclear
    push_neg at hclear
    obtain ⟨hne, hfront, hback⟩ := hclear
    rcases hprev with h0 | ⟨⟨_, hpair, hbound⟩, ht₀⟩
    · exact absurd h0 hne
    set l₁ := mm.minList.dropWhile (fun q => decide (q.2 + mm.intv < t)) with hl₁
    have hsub : l₁.Sublist mm.minList := List.dropWhile_sublist _
    have hl₁ne : l₁ ≠ [] := by
      refine dropWhile_ne_nil_of_getLastD _ mm.minList (v, t) hne ?_
      exact decide_eq_false (not_lt.mpr hback)
    have hl₁pair : l₁.Pairwise (fun a b => a.1 < b.1 ∧ a.2 ≤ b.2) :=
      hpair.sublist hsub
    have hl₁mem : ∀ q ∈ l₁, q ∈ mm.minList := fun q hq => hsub.subset hq
    have hl₁bound : ∀ q ∈ l₁, q.2 ≤ t ∧ t ≤ q.2 + mm.intv := by
      obtain ⟨q₀, r₀, hq₀⟩ := List.exists_cons_of_ne_nil hl₁ne
      have hq₀f := head_dropWhile_false _ mm.minList (hl₁ ▸ hq₀)
      have hq₀w : t ≤ q₀.2 + mm.intv := not_lt.mp (of_decide_eq_false hq₀f)
      intro q hq
      refine ⟨le_trans (hbound q (hl₁mem q hq)).1 ht₀, ?_⟩
      rw [hq₀] at hq
      rcases List.mem_cons.mp hq with rfl | hq'
      · exact hq₀w
      · have hrel := (List.pairwise_cons.mp (hq₀ ▸ hl₁pair)).1 q hq'
        linarith [hrel.2]
    have hl₁inv : mmInv mm.intv t l₁ := ⟨hl₁ne, hl₁pair, hl₁bound⟩
    split
    · rename_i hgt
      split
      · have hlast := mem_rel_getLastD hl₁pair ((v : ℚ), (t : ℤ))
        have happ : mmInv mm.intv t (l₁ ++ [(v, t)]) := by
          refine ⟨by simp, ?_, ?_⟩
          · rw [List.pairwise_append]
            refine ⟨hl₁pair, by simp, ?_⟩
            intro a ha b hb
            rcases List.mem_singleton.mp hb with rfl
            have hb2 : a.2 ≤ t := (hl₁bound a ha).1
            rcases hlast a ha with rfl | hrel
            · exact ⟨hgt, hb2⟩
            · exact ⟨lt_trans hrel.1 hgt, hb2⟩
          · intro q hq
            rcases List.mem_append.mp hq with hq' | hq'
            · exact hl₁bound q hq'
            · rcases List.mem_singleton.mp hq' with rfl
              exact ⟨le_refl _, by linarith⟩
        exact ⟨happ, hmin _ happ.2.1⟩
      · exact ⟨hl₁inv, hmin _ hl₁inv.2.1⟩
    · set kept := l₁.takeWhile (fun q : ℚ × ℤ => decide (q.1 < v)) with hkept
      have hksub : kept.Sublist l₁ := List.takeWhile_sublist _
      have happ : mmInv mm.intv t (kept ++ [(v, t)]) := by
        refine ⟨by simp, ?_, ?_⟩
        · rw [List.pairwise_append]
          refine ⟨hl₁pair.sublist hksub, by simp, ?_⟩
          intro a ha b hb
          rcases List.mem_singleton.mp hb with rfl
          have hav : a.1 < v := by
            have ha' : a ∈ l₁.takeWhile (fun q : ℚ × ℤ => decide (q.1 < v)) := by
              rw [← hkept]; exact ha
            have h2 := List.mem_takeWhile_imp ha'
            simpa using h2
          exact ⟨hav, (hl₁bound a (hksub.subset ha)).1⟩
        · intro q hq
          rcases List.mem_append.mp hq with hq' | hq'
          · exact hl₁bound q (hksub.subset hq')
          · rcases List.mem_singleton.mp hq' with rfl
            exact ⟨le_refl _, by linarith⟩
      exact ⟨happ, hmin _ happ.2.1⟩

/-! ## Per-flow clock estimation (`flowDelay.hpp`, `flowDly`)

The flow record.  `_flowname` (a display string equal to the table
key) is omitted; the `rfp` peer pointer is the peer's key.  `zeroTm`
and `spSet` are uninitialised doubles in the source, read only after
being written (reads are guarded by `clkSet`); the model zeroes them. -/

structure flowDly where
  lastTm : ℚ := 0
  minPP : ℚ := 10 ^ 30
  minTS : ℤ := 0
  minTm : ℚ := 0
  bytesSnt : ℚ := 0
  revFlow : Bool := false
  rfp : Option (String × String) := none
  mm : movingMin := { minList := [], nxtIntr := 50, intv := 50, sub := 10 }
  pktCnt : ℕ := 0
  zeroTS : ℤ := 0
  zeroTm : ℚ := 0
  startTm : ℚ := 0
  startTS : ℤ := 0
  twrap : tsWrap := tsWrapInit
  ewrap : tsWrap := tsWrapInit
  lstTS : ℚ × ℤ := (0, 0)
  lhPts : List (ℚ × ℤ) := []
  spTS : ℚ := 0
  spSet : ℚ := 0
  clkSet : Bool := false
  deriving DecidableEq, Repr

/-- The `flowDly` constructor: counters zeroed, both wrap trackers
zeroed, and `_mm{5.0,50}` followed by `_mm.setFirstInterval()`, i.e. a
MovingMin with `_interval = 50`, `_sub = 50/5.0 = 10`,
`_nxtIntr = 0 + 50`. -/
def flowDlyInit : flowDly := {}

/-- Model of `flowDly::cross(O, A, B)` from the source:
`(A.ts−O.ts)·(B.tm−O.tm) − (A.tm−O.tm)·(B.ts−O.ts)` (the `int64_t`
differences are promoted to `double` by the multiplication). -/
def cross (O A B : ℚ × ℤ) : ℚ :=
  ((A.2 - O.2 : ℤ) : ℚ) * (B.1 - O.1) - (A.1 - O.1) * ((B.2 - O.2 : ℤ) : ℚ)

/-- Lower-hull tail popping with the strict test used for `lhPts`:
`while(size ≥ 2 && cross(pts[n−2], pts[n−1], new) < 0) pop_back()`,
then push.  The list is kept in reverse (back of the vector first). -/
def hullPushLt : List (ℚ × ℤ) → (ℚ × ℤ) → List (ℚ × ℤ)
  | b :: a :: rest, nv =>
    if cross a b nv < 0 then hullPushLt (a :: rest) nv else nv :: b :: a :: rest
  | l, nv => nv :: l

/-- Same popping loop with the non-strict test (`≤ 0`) used for the
local `lhSegs` copy (drops intermediate collinear points). -/
def hullPushLe : List (ℚ × ℤ) → (ℚ × ℤ) → List (ℚ × ℤ)
  | b :: a :: rest, nv =>
    if cross a b nv ≤ 0 then hullPushLe (a :: rest) nv else nv :: b :: a :: rest
  | l, nv => nv :: l

/-- Model of `std::round` (nearest integer, halfway cases away from zero), as
used in `round(m*1000.)/1000.`. -/
def cround (q : ℚ) : ℤ :=
  if 0 ≤ q then ⌊q + 1 / 2⌋ else -⌊-q + 1 / 2⌋

/-- The scan `for(i=1; i<lhSegs.size(); i++) if(ts[i]−ts[i−1] ≥
longestSeg) { longestSeg = …; li = i; }` with `longestSeg = 0, li = 0`
initially: index of the longest (`ts`-gap) segment, ties to the last. -/
def findLiAux : List (ℚ × ℤ) → (ℚ × ℤ) → ℕ → ℤ → ℕ → ℕ
  | [], _, _, _, li => li
  | x :: xs, prev, i, longest, li =>
    if longest ≤ x.2 - prev.2 then findLiAux xs x (i + 1) (x.2 - prev.2) i
    else findLiAux xs x (i + 1) longest li

def findLi : List (ℚ × ℤ) → ℕ
  | [] => 0
  | h :: rest => findLiAux rest h 1 0 0

/-- Model of `flowDly::computeTicks(tm, ts)`, the per-flow clock estimator.
Straight translation; the two hull vectors are kept back-first (see
`hullPushLt`), and `lhSegs` is reversed to forward order for the
longest-segment scan and indexing.  `newInterval` is called with the
adjusted `ts`, which is non-negative whenever the de-duplication guard
passes, so the `uint64_t` conversion in the source is the identity. -/
def computeTicks (fr : flowDly) (tm : ℚ) (ts : ℤ) : flowDly × Bool :=
  if fr.pktCnt ≠ 0 ∧ fr.lstTS.2 ≥ ts then (fr, fr.clkSet)
  else
    let fr := { fr with lstTS := (tm, ts) }
    let tm' := tm - fr.startTm
    let ts' := ts - fr.startTS
    let lhSegs0 := fr.lhPts
    let fr := { fr with mm := addSample fr.mm tm' ts' }
    let ni := newInterval fr.mm ts'
    if ni.1 = false then (fr, fr.clkSet)
    else
      let fr := { fr with mm := ni.2 }
      let p := intervalMin fr.mm
      let fr := { fr with lhPts := hullPushLt fr.lhPts p }
      let lhSegs := (hullPushLe lhSegs0 p).reverse
      if ts' < 3 * interval ∨ fr.lhPts.length < 2 ∨ fr.pktCnt < 20 then (fr, fr.clkSet)
      else
        let li := findLi lhSegs
        if (lhSegs.getD li (0, 0)).2 + fr.startTS = fr.zeroTS then
          (if fr.zeroTS < fr.minTS then
            { fr with zeroTS := fr.minTS, zeroTm := fr.minTm }
          else fr, fr.clkSet)
        else
          let A := lhSegs.getD (li - 1) (0, 0)
          let B := lhSegs.getD li (0, 0)
          let m := (B.1 - A.1) / ((B.2 - A.2 : ℤ) : ℚ)
          let spt := ((cround (m * 1000) : ℤ) : ℚ) / 1000
          if spt = 0 then ({ fr with clkSet := false }, false)
          else if 5 / 1000 < |m - spt| / spt then ({ fr with clkSet := false }, false)
          else
            ({ fr with
                spTS := spt,
                zeroTS := fr.startTS + B.2,
                zeroTm := fr.startTm + B.1,
                clkSet := true,
                spSet := tm' }, true)

/-- The slope regression attempted (if any) by one `computeTicks`
call: `some (m, spt)` exactly when the call reaches the
`auto m = …; double spt = round(m*1000.)/1000.;` statements (step 7 of
the spec's update rule), `none` on every earlier return path.  The
guard chain replicates `computeTicks` verbatim. -/
def regressionOf (fr : flowDly) (tm : ℚ) (ts : ℤ) : Option (ℚ × ℚ) :=
  if fr.pktCnt ≠ 0 ∧ fr.lstTS.2 ≥ ts then none
  else
    let fr := { fr with lstTS := (tm, ts) }
    let tm' := tm - fr.startTm
    let ts' := ts - fr.startTS
    let lhSegs0 := fr.lhPts
    let fr := { fr with mm := addSample fr.mm tm' ts' }
    let ni := newInterval fr.mm ts'
    if ni.1 = false then none
    else
      let fr := { fr with mm := ni.2 }
      let p := intervalMin fr.mm
      let fr := { fr with lhPts := hullPushLt fr.lhPts p }
      let lhSegs := (hullPushLe lhSegs0 p).reverse
      if ts' < 3 * interval ∨ fr.lhPts.length < 2 ∨ fr.pktCnt < 20 then none
      else
        let li := findLi lhSegs
        if (lhSegs.getD li (0, 0)).2 + fr.startTS = fr.zeroTS then none
        else
          let A := lhSegs.getD (li - 1) (0, 0)
          let B := lhSegs.getD li (0, 0)
          let m := (B.1 - A.1) / ((B.2 - A.2 : ℤ) : ℚ)
          some (m, ((cround (m * 1000) : ℤ) : ℚ) / 1000)

/-- Per-packet fields handed to `computeDV` (`struct pktInfo`): the
capture time, extended TSval and ECR, size, and the three delay
variations initialised to `−1` ("can't compute") by `processPacket`. -/
structure pktInfo where
  tm : ℚ
  ts : ℤ
  ecr : ℤ
  sz : ℕ
  dv0 : ℚ := -1
  dv1 : ℚ := -1
  dv2 : ℚ := -1
  deriving DecidableEq, Repr

/-- Model of `flowDly::computeDV(pi)`.  The C++ method reads the peer record
through the `rfp` pointer; the model receives that record (the
dispatcher looks it up in the flow table).  `srcTm` is an
uninitialised double in the source, read only under `clkSet`, which is
true exactly when `computeTicks` returned true and `srcTm` was
assigned; the model's placeholder `0` in the other branch is dead. -/
def computeDV (fr : flowDly) (peer : Option flowDly) (pi : pktInfo) :
    flowDly × pktInfo × Bool :=
  let ct := computeTicks fr pi.tm pi.ts
  let fr := ct.1
  let srcTm :=
    if ct.2 then
      let s := ((pi.ts - fr.zeroTS : ℤ) : ℚ) * fr.spTS + fr.zeroTm
      if pi.tm < s then pi.tm else s
    else 0
  let pi := if ct.2 then { pi with dv1 := pi.tm - srcTm } else pi
  let setDV := ct.2
  if fr.revFlow = false then (fr, pi, setDV)
  else
    match peer with
    | none => (fr, pi, setDV)
    | some rp =>
      if rp.clkSet = false then (fr, pi, setDV)
      else
        let dstTm := ((pi.ecr - rp.zeroTS : ℤ) : ℚ) * rp.spTS + rp.zeroTm
        if pi.tm < dstTm then (fr, pi, setDV)
        else
          let pi := { pi with dv2 := pi.tm - dstTm }
          let pi := if fr.clkSet then { pi with dv0 := srcTm - dstTm } else pi
          (fr, pi, true)

/-- Iterate `computeTicks` over a list of `(tm, ts)` samples. -/
def runTicks (fr : flowDly) : List (ℚ × ℤ) → flowDly
  | [] => fr
  | c :: cs => runTicks (computeTicks fr c.1 c.2).1 cs

/-- The most recent regression actually evaluated over a sequence of
`computeTicks` calls (`none` if no call in the sequence reached the
slope computation). -/
def lastRegression (fr : flowDly) : List (ℚ × ℤ) → Option (ℚ × ℚ)
  | [] => none
  | c :: cs =>
    match lastRegression (computeTicks fr c.1 c.2).1 cs with
    | some r => some r
    | none => regressionOf fr c.1 c.2

theorem computeTicks_ret (fr : flowDly) (tm : ℚ) (ts : ℤ) :
    (computeTicks fr tm ts).2 = (computeTicks fr tm ts).1.clkSet := by
  simp only [computeTicks]
  repeat' split
  all_goals simp_all

theorem computeTicks_noreg (fr : flowDly) (tm : ℚ) (ts : ℤ)
    (h : regressionOf fr tm ts = none) :
    (computeTicks fr tm ts).1.clkSet = fr.clkSet := by
  simp only [computeTicks, regressionOf] at h ⊢
  repeat' (first | split at h | split)
  all_goals simp_all

theorem computeTicks_reg (fr : flowDly) (tm : ℚ) (ts : ℤ) (m spt : ℚ)
    (h : regressionOf fr tm ts = some (m, spt)) :
    ((computeTicks fr tm ts).1.clkSet = true ↔
      (spt ≠ 0 ∧ |m - spt| / spt ≤ 5 / 1000)) := by
  simp only [computeTicks, regressionOf] at h ⊢
  repeat' (first | split at h | split)
  all_goals try simp_all [not_lt]
  all_goals
    obtain ⟨hm, hspt⟩ := h
    subst hm
    subst hspt
    try simp_all [not_lt, div_eq_zero_iff, Int.cast_eq_zero]

/-- C9 (confirmed): after any sequence of `computeTicks` calls,
`clkSet` can be true only if the most recent slope regression that was
actually evaluated (reached the `m`/`spt` computation) produced
`spt ≠ 0` and `skew/spt ≤ 0.005` with `spt = round(m·1000)/1000` and
`skew = |m − spt|`; if no regression was ever evaluated, `clkSet` is
whatever it initially was (false for `flowDlyInit`).  A regression
that violates either condition forces `clkSet = false`, and every call
returns the updated `clkSet` (`computeTicks_ret`). -/
theorem computeTicks_clk_only_if_regression_ok (cs : List (ℚ × ℤ)) (fr : flowDly)
    (h : (runTicks fr cs).clkSet = true) :
    (match lastRegression fr cs with
     | some (m, spt) => spt ≠ 0 ∧ |m - spt| / spt ≤ 5 / 1000
     | none => fr.clkSet = true) := by
  induction cs generalizing fr with
  | nil => exact h
  | cons c cs ih =>
    have h' := ih (computeTicks fr c.1 c.2).1 h
    simp only [lastRegression]
    rcases hlr : lastRegression (computeTicks fr c.1 c.2).1 cs with _ | ⟨m, spt⟩
    · rw [hlr] at h'
      rcases hreg : regressionOf fr c.1 c.2 with _ | ⟨m, spt⟩
      · exact (computeTicks_noreg fr c.1 c.2 hreg) ▸ h'
      · exact (computeTicks_reg fr c.1 c.2 m spt hreg).mp h'
    · rw [hlr] at h'
      exact h'

def frS4 : flowDly := { flowDlyInit with startTS := 100, pktCnt := 20 }

def csS4 : List (ℚ × ℤ) := [(0, 100), (1 / 10, 200), (1 / 5, 300), (3 / 10, 400)]

/-- Witness for C9: a concrete ideal 1 ms/tick sample run (spacing as
in scenario S4) on which `clkSet` becomes true; the theorem then
yields that its last evaluated regression satisfied the threshold. -/
theorem computeTicks_clk_witness :
    (runTicks frS4 csS4).clkSet = true ∧
    (match lastRegression frS4 csS4 with
     | some (m, spt) => spt ≠ 0 ∧ |m - spt| / spt ≤ 5 / 1000
     | none => frS4.clkSet = true) :=
  ⟨by with_unfolding_all decide,
    computeTicks_clk_only_if_regression_ok csS4 frS4 (by with_unfolding_all decide)⟩

/-- C4 (confirmed): on the `pktInfo` handed over by `processPacket`
(all three `dv` slots initialised to `−1`), `computeDV` leaves `dv[1]`
at `−1` or sets it to a non-negative value (the clamp `srcTm ≤ tm`
forces `tm − srcTm ≥ 0`), and likewise `dv[2]` (only set when
`dstTm ≤ tm`).  `dv[0] = srcTm − dstTm` is unconstrained.  This holds
for every flow state and every peer snapshot. -/
theorem computeDV_dv_nonneg (fr : flowDly) (peer : Option flowDly) (tm : ℚ)
    (ts ecr : ℤ) (sz : ℕ) :
    ((computeDV fr peer { tm := tm, ts := ts, ecr := ecr, sz := sz }).2.1.dv1 = -1 ∨
      0 ≤ (computeDV fr peer { tm := tm, ts := ts, ecr := ecr, sz := sz }).2.1.dv1) ∧
    ((computeDV fr peer { tm := tm, ts := ts, ecr := ecr, sz := sz }).2.1.dv2 = -1 ∨
      0 ≤ (computeDV fr peer { tm := tm, ts := ts, ecr := ecr, sz := sz }).2.1.dv2) := by
  simp only [computeDV]
  repeat' split
  all_goals simp_all

/-! ## MatchTable (`dlyloc.cpp`, `tsTbl` / `addTS` / `getTStm`)

The global TSval table: key = (flow key, 32-bit TSval), value =
signed capture time. -/

/-- A flow key: `(IPsrc, IPdst)` as `"addr:port"` strings (the source
joins them with `"+"`). -/
abbrev FlowKey : Type := String × String

/-- Reverse flow key (`pi.IPdst + "+" + pi.IPsrc`). -/
def revKey (k : FlowKey) : FlowKey := (k.2, k.1)

abbrev TsKey : Type := FlowKey × ℕ

/-- Model of `addTS(key, t)`: `tsTbl.try_emplace(key, t)` — keep an existing
entry (even a negated, already-matched one) untouched. -/
def addTS (tbl : List (TsKey × ℚ)) (key : TsKey) (t : ℚ) : List (TsKey × ℚ) :=
  if (lookupF tbl key).isSome then tbl else (key, t) :: tbl

/-- Model of `getTStm(key)`: look the key up; if present with value `d`, store
`−d` back ("mark it negative to indicate it's been used") and return
`d`; if absent return `−1`. -/
def getTStm (tbl : List (TsKey × ℚ)) (key : TsKey) : ℚ × List (TsKey × ℚ) :=
  match lookupF tbl key with
  | some d => (d, setF tbl key (-d))
  | none => (-1, tbl)

def tsKey0 : TsKey := (("10.0.0.1:1", "10.0.0.2:2"), 100)

/-- C2 (code_bug): probing the same entry three times yields a
positive capture time TWICE.  `getTStm` negates the stored value
unconditionally, so the second probe (returning the negative, i.e. a
null match) re-arms the entry and the third probe matches again —
contradicting both the claim and the source's own comment ("the time
in the entry is negated after retrieval to prevent reuse"). -/
theorem getTStm_positive_twice :
    (getTStm (addTS [] tsKey0 2) tsKey0).1 = 2 ∧
    (getTStm (getTStm (addTS [] tsKey0 2) tsKey0).2 tsKey0).1 = -2 ∧
    (getTStm (getTStm (getTStm (addTS [] tsKey0 2) tsKey0).2 tsKey0).2 tsKey0).1 = 2 := by
  refine ⟨?_, ?_, ?_⟩ <;> with_unfolding_all decide

/-! ## Dispatcher (`dlyloc.cpp`, `processPacket` / `cleanUp`)

A packet as the dispatcher sees it after libtins parsing: capture
timestamp (seconds/microseconds), the `"addr:port"` endpoint strings,
the destination host string (for the local-traffic filter), the raw
32-bit TSval/ECR, the TCP flag bits, and the PDU size.  Packets
without TCP, without the Timestamp option, or of neither IP version
are dropped into counters before any of the state handled here is
touched; the model's packet type covers the packets that survive that
parsing (all claims are about such packets). -/
structure Packet where
  secs : ℤ
  usecs : ℕ
  src : String
  dst : String
  dstHst : String
  ts : ℕ
  ecr : ℕ
  fin : Bool := false
  syn : Bool := false
  rst : Bool := false
  psh : Bool := false
  ack : Bool := false
  urg : Bool := false
  ece : Bool := false
  cwr : Bool := false
  sz : ℕ := 0
  deriving DecidableEq, Repr

/-- The numeric value of `tcp->flags()` (libtins encoding: FIN=1,
SYN=2, RST=4, PSH=8, ACK=16, URG=32, ECE=64, CWR=128). -/
def tcpFlags (p : Packet) : ℕ :=
  (cond p.fin 1 0) + (cond p.syn 2 0) + (cond p.rst 4 0) + (cond p.psh 8 0) +
    (cond p.ack 16 0) + (cond p.urg 32 0) + (cond p.ece 64 0) + (cond p.cwr 128 0)

/-- The early-reject test of `processPacket` (line 235):
`ts == 0 || (ecr == 0 && (t_tcp->flags() != TCP::SYN))` with
`TCP::SYN = 2`. -/
def rejectTS (ts ecr flagsV : ℕ) : Bool :=
  decide (ts = 0) || (decide (ecr = 0) && !(decide (flagsV = 2)))

/-- The rejection rule as claim C5 words it: `tsval == 0`, or
`ecr == 0` and the SYN *flag* is not set (so any packet with SYN among
its flags would pass).  Stated for refinement comparison with
`rejectTS`; the code disagrees on packets that carry SYN together
with other flags. -/
def rejectClaimC5 (ts ecr : ℕ) (p : Packet) : Bool :=
  decide (ts = 0) || (decide (ecr = 0) && !p.syn)

/-- Run-time configuration (the source's file-scope statics). -/
structure Config where
  maxFlows : ℤ := 10000
  tsvalMaxAge : ℚ := 10
  flowMaxIdle : ℚ := 300
  filtLocal : Bool := true
  localIP : String := ""
  deriving DecidableEq, Repr

/-- An output record (machine-readable line): capture time, rtt and
minRTT (`−1` when absent), byte count, the three delay variations
(`−1` when absent) and the flow key. -/
structure Emit where
  tm : ℚ
  rtt : ℚ
  minRTT : ℚ
  bytes : ℚ
  dv0 : ℚ
  dv1 : ℚ
  dv2 : ℚ
  flow : FlowKey
  deriving DecidableEq, Repr

/-- Dispatcher state: the flow table, the TSval match table, the
capture-time origin (`offTm = −1` until the first accepted packet),
and the counters.  `emitted` collects the printed records. -/
structure DState where
  flows : List (FlowKey × flowDly) := []
  tsTbl : List (TsKey × ℚ) := []
  offTm : ℤ := -1
  startm : ℚ := 0
  capTm : ℚ := 0
  flowCnt : ℤ := 0
  pktCnt : ℤ := 0
  uniDir : ℤ := 0
  emitted : List Emit := []
  deriving DecidableEq, Repr

def dInit : DState := {}

def cfgDefault : Config := {}

/-- The tail of `processPacket` after the flow-table upsert: update
`_lastTm`, extend the ECR, bump byte/packet counters, run
`computeDV` (the peer record is the table entry named by `rfp`), then
probe / record TSvals for bidirectional flows, and finally emit.  The
net effect of the C++ pointer mutations is written back under `fstr`.
The `none` branch mirrors the source's "no flow in map though count
is non-zero" error return. -/
def flowTail (cfg : Config) (s : DState) (p : Packet) (fstr : FlowKey)
    (piTs : ℤ) (capTm : ℚ) : DState :=
  match lookupF s.flows fstr with
  | none => s
  | some fr0 =>
    let fr1 := { fr0 with lastTm := capTm }
    let eE := extendTS p.ecr fr1.ewrap
    let fr2 := { fr1 with ewrap := eE.2 }
    let fr3 := { fr2 with bytesSnt := fr2.bytesSnt + (p.sz : ℚ), pktCnt := fr2.pktCnt + 1 }
    let pi : pktInfo := { tm := capTm, ts := piTs, ecr := eE.1, sz := p.sz }
    let peer := fr3.rfp.bind (fun k => lookupF s.flows k)
    let cdv := computeDV fr3 peer pi
    let fr4 := cdv.1
    let pi' := cdv.2.1
    let dvs := cdv.2.2
    let probe :=
      if fr4.revFlow then
        let g := getTStm s.tsTbl (revKey fstr, p.ecr)
        let tbl :=
          if cfg.filtLocal = false ∨ cfg.localIP ≠ p.dstHst then
            addTS g.2 (fstr, p.ts) capTm
          else g.2
        (g.1, tbl, s.uniDir)
      else ((-1 : ℚ), s.tsTbl, s.uniDir + 1)
    let outTm := probe.1
    let res :=
      if dvs = true ∧ (fr4.revFlow = false ∨ outTm < 0) then
        (fr4, s.emitted ++ [{ tm := capTm, rtt := -1, minRTT := -1, bytes := fr4.bytesSnt, dv0 := pi'.dv0, dv1 := pi'.dv1, dv2 := pi'.dv2, flow := fstr }])
      else if 0 < outTm then
        let rtt := capTm - outTm
        let fr5 :=
          if rtt < fr4.minPP then
            { fr4 with minPP := rtt, minTS := piTs - fr4.startTS, minTm := capTm }
          else fr4
        (fr5, s.emitted ++ [{ tm := capTm, rtt := rtt, minRTT := fr5.minPP, bytes := fr5.bytesSnt, dv0 := pi'.dv0, dv1 := pi'.dv1, dv2 := pi'.dv2, flow := fstr }])
      else (fr4, s.emitted)
    { s with flows := setF s.flows fstr res.1, tsTbl := probe.2.1, uniDir := probe.2.2, emitted := res.2 }

/-- Model of `processPacket`, from the early-reject test on (the packet is TCP
with a Timestamp option and an IP layer; see `Packet`).  Computes the
capture-time offset, upserts the flow (creating and cross-pairing
with the reverse flow exactly as the source: emplace first, then
check for the reverse key), extends the TSval against the flow's
`twrap`, and hands over to `flowTail`. -/
def processPacket (cfg : Config) (s : DState) (p : Packet) : DState :=
  let s := { s with pktCnt := s.pktCnt + 1 }
  if rejectTS p.ts p.ecr (tcpFlags p) then s
  else
    let offTm := if s.offTm < 0 then p.secs else s.offTm
    let startm := if s.offTm < 0 then (p.usecs : ℚ) / 1000000 else s.startm
    let capTm :=
      if s.offTm < 0 then (p.usecs : ℚ) / 1000000
      else ((p.secs - s.offTm : ℤ) : ℚ) + (p.usecs : ℚ) / 1000000
    let s := { s with offTm := offTm, startm := startm, capTm := capTm }
    let fstr : FlowKey := (p.src, p.dst)
    match lookupF s.flows fstr with
    | none =>
      if cfg.maxFlows < s.flowCnt then s
      else
        let e := extendTS p.ts tsWrapInit
        let fr := { flowDlyInit with startTm := capTm, startTS := e.1, twrap := e.2 }
        let s := { s with flows := (fstr, fr) :: s.flows, flowCnt := s.flowCnt + 1 }
        let s :=
          if (lookupF s.flows (revKey fstr)).isSome then
            let fl1 := updF s.flows (revKey fstr) (fun r => { r with revFlow := true, rfp := some fstr })
            let fl2 := updF fl1 fstr (fun r => { r with revFlow := true, rfp := some (revKey fstr) })
            { s with flows := fl2 }
          else s
        flowTail cfg s p fstr e.1 capTm
    | some fr0 =>
      let e := extendTS p.ts fr0.twrap
      let s := { s with flows := updF s.flows fstr (fun r => { r with twrap := e.2 }) }
      flowTail cfg s p fstr e.1 capTm

/-- Model of `fr->rfp->revFlow = false; fr->rfp->rfp = nullptr;`. -/
def clearPeerLink (r : flowDly) : flowDly := { r with revFlow := false, rfp := none }

/-- One iteration of the `cleanUp` flow loop for key `k`: if the flow
is idle longer than `flowMaxIdle`, clear the peer's pairing (when
paired) and erase the flow, decrementing `flowCnt`. -/
def cleanStep (cfg : Config) (n : ℚ) (st : List (FlowKey × flowDly) × ℤ) (k : FlowKey) :
    List (FlowKey × flowDly) × ℤ :=
  match lookupF st.1 k with
  | none => st
  | some fr =>
    if cfg.flowMaxIdle < n - fr.lastTm then
      let tbl :=
        if fr.revFlow then
          match fr.rfp with
          | some pk => updF st.1 pk clearPeerLink
          | none => st.1
        else st.1
      (eraseF tbl k, st.2 - 1)
    else st

/-- Model of `cleanUp(n)`: age the TSval table (erase entries whose
`capTm − |value|` exceeds `tsvalMaxAge`) and evict idle flows.  The
C++ iterates the unordered map once, erasing as it goes; the model
folds over the key list (peer-link mutations are record updates, so
every original key is visited exactly once, matching the iterator). -/
def cleanUp (cfg : Config) (s : DState) (n : ℚ) : DState :=
  let tsTbl := s.tsTbl.filter (fun e => decide (s.capTm - |e.2| ≤ cfg.tsvalMaxAge))
  let fc := (s.flows.map Prod.fst).foldl (cleanStep cfg n) (s.flows, s.flowCnt)
  { s with tsTbl := tsTbl, flows := fc.1, flowCnt := fc.2 }

/-- An observable dispatcher step: a packet arrival or a cleanup
sweep (the main loop runs `cleanUp(capTm)` every `tsvalMaxAge`
seconds of capture time; the model allows a sweep at any `n`). -/
inductive Ev where
  | pkt (p : Packet)
  | sweep (n : ℚ)
  deriving Repr

def dStep (cfg : Config) (s : DState) : Ev → DState
  | Ev.pkt p => processPacket cfg s p
  | Ev.sweep n => cleanUp cfg s n

def runEv (cfg : Config) (s : DState) : List Ev → DState
  | [] => s
  | e :: es => runEv cfg (dStep cfg s e) es

/-! ## Scenario S1 (claim C1) -/

/-- Packet A of scenario S1: t=0.0, 10.0.0.1:1 → 10.0.0.2:2,
tsval=100, ecr=0, SYN. -/
def pktA : Packet :=
  { secs := 0, usecs := 0, src := "10.0.0.1:1", dst := "10.0.0.2:2",
    dstHst := "10.0.0.2", ts := 100, ecr := 0, syn := true, sz := 64 }

/-- Packet B of scenario S1: t=0.010, 10.0.0.2:2 → 10.0.0.1:1,
tsval=500, ecr=100 (an ACK). -/
def pktB : Packet :=
  { secs := 0, usecs := 10000, src := "10.0.0.2:2", dst := "10.0.0.1:1",
    dstHst := "10.0.0.1", ts := 500, ecr := 100, ack := true, sz := 64 }

/-- A third packet continuing S1: t=0.020, 10.0.0.1:1 → 10.0.0.2:2,
tsval=200, ecr=500 (echoing B's TSval). -/
def pktC : Packet :=
  { secs := 0, usecs := 20000, src := "10.0.0.1:1", dst := "10.0.0.2:2",
    dstHst := "10.0.0.2", ts := 200, ecr := 500, ack := true, sz := 64 }

/-- C1 counterexample: processing packet A then packet B from empty
tables emits NO record (the claim expects exactly one, with
rtt = 0.010).  Packet A's TSval is never inserted into the match
table: `processPacket` records TSvals only under `if (fr->revFlow)`,
and A's flow is unidirectional when A is processed, so B's probe with
`(reverse key, ecr=100)` finds nothing. -/
theorem s1_two_packets_emit_nothing :
    (runEv cfgDefault dInit [Ev.pkt pktA, Ev.pkt pktB]).emitted = [] := by
  with_unfolding_all decide

/-- C1 amended: with a third packet C (t=0.020, 10.0.0.1:1 →
10.0.0.2:2, tsval=200, ecr=500) the run emits exactly one record,
with rtt = 0.020 − 0.010 = 0.010, minRTT = 0.010, and flow id
`10.0.0.1:1+10.0.0.2:2` (the flow of the packet whose ECR matched:
B's TSval 500 was recorded at t=0.010 because B's flow was already
paired, and C echoes it). -/
theorem s1_three_packets_emit_one :
    (runEv cfgDefault dInit [Ev.pkt pktA, Ev.pkt pktB, Ev.pkt pktC]).emitted =
      [{ tm := 1 / 50, rtt := 1 / 100, minRTT := 1 / 100, bytes := 128,
         dv0 := -1, dv1 := -1, dv2 := -1, flow := ("10.0.0.1:1", "10.0.0.2:2") }] := by
  with_unfolding_all decide

/-! ## Claim C5: the zero-timestamp rejection rule -/

/-- A SYN+ACK with `ecr = 0` (flags value `SYN|ACK = 18`). -/
def pktSynAck : Packet :=
  { secs := 0, usecs := 0, src := "10.0.0.2:2", dst := "10.0.0.1:1",
    dstHst := "10.0.0.1", ts := 1, ecr := 0, syn := true, ack := true, sz := 60 }

/-- C5 counterexample: the code compares the whole flag byte for
equality with `TCP::SYN`, so a SYN+ACK carrying `ecr = 0` IS rejected
(no flow is created, nothing emitted), while the claim's rule ("the
SYN flag is not set") says it is not rejected. -/
theorem rejectTS_synack_rejected :
    rejectTS pktSynAck.ts pktSynAck.ecr (tcpFlags pktSynAck) = true ∧
    rejectClaimC5 pktSynAck.ts pktSynAck.ecr pktSynAck = false ∧
    (processPacket cfgDefault dInit pktSynAck).flows = [] ∧
    (processPacket cfgDefault dInit pktSynAck).tsTbl = [] ∧
    (processPacket cfgDefault dInit pktSynAck).emitted = [] := by
  with_unfolding_all decide

/-- C5 amended: a TCP packet with a Timestamp option is rejected (the
dispatcher returns with only the packet counter bumped) exactly when
`tsval = 0`, or `ecr = 0` and the TCP flags are not exactly SYN alone
— so an `ecr = 0` SYN+ACK is rejected rather than passed through. -/
theorem rejectTS_exact_syn (cfg : Config) (s : DState) (p : Packet) :
    (rejectTS p.ts p.ecr (tcpFlags p) = true →
      processPacket cfg s p = { s with pktCnt := s.pktCnt + 1 }) ∧
    (rejectTS p.ts p.ecr (tcpFlags p) = true ↔
      (p.ts = 0 ∨ (p.ecr = 0 ∧
        ¬(p.syn = true ∧ p.fin = false ∧ p.rst = false ∧ p.psh = false ∧
          p.ack = false ∧ p.urg = false ∧ p.ece = false ∧ p.cwr = false)))) := by
  constructor
  · intro h
    simp [processPacket, h]
  · obtain ⟨secs, usecs, src, dst, dstHst, ts, ecr, fin, syn, rst, psh, ack, urg, ece, cwr, sz⟩ := p
    cases fin <;> cases syn <;> cases rst <;> cases psh <;>
      cases ack <;> cases urg <;> cases ece <;> cases cwr <;>
      simp [rejectTS, tcpFlags]

/-- Witness for the C5 amended theorem at the SYN+ACK packet. -/
theorem rejectTS_exact_syn_witness :
    processPacket cfgDefault dInit pktSynAck = { dInit with pktCnt := dInit.pktCnt + 1 } ∧
    rejectTS pktSynAck.ts pktSynAck.ecr (tcpFlags pktSynAck) = true :=
  ⟨(rejectTS_exact_syn cfgDefault dInit pktSynAck).1 (by decide), by decide⟩

/-! ## Claim C6: peer consistency of the flow table -/

/-- Peer-consistency invariant: every paired flow record points at
the exact reverse key, which is present, itself paired, and points
back. -/
def pairedOK (tbl : List (FlowKey × flowDly)) : Prop :=
  ∀ k fr, lookupF tbl k = some fr → fr.revFlow = true →
    fr.rfp = some (revKey k) ∧
      ∃ fr', lookupF tbl (revKey k) = some fr' ∧ fr'.revFlow = true ∧ fr'.rfp = some k

theorem revKey_revKey (k : FlowKey) : revKey (revKey k) = k := rfl

theorem revKey_inj {a b : FlowKey} (h : revKey a = revKey b) : a = b := by
  have := congrArg revKey h
  rwa [revKey_revKey, revKey_revKey] at this

theorem pairedOK_nil : pairedOK [] := by
  intro k fr h
  simp at h

/-- Updating the record at one key with a function that preserves the
`revFlow`/`rfp` fields preserves peer consistency. -/
theorem pairedOK_upd (tbl : List (FlowKey × flowDly)) (k : FlowKey) (f : flowDly → flowDly)
    (hf : ∀ r, lookupF tbl k = some r → (f r).revFlow = r.revFlow ∧ (f r).rfp = r.rfp)
    (hp : pairedOK tbl) : pairedOK (updF tbl k f) := by
  intro j g hj hrev
  rw [lookupF_updF] at hj
  by_cases hjk : j = k
  · subst hjk
    rw [if_pos rfl] at hj
    cases hl : lookupF tbl j with
    | none => rw [hl] at hj; exact absurd hj (by simp)
    | some r =>
      rw [hl, Option.map_some'] at hj
      injection hj with hj
      subst hj
      have hfr := hf r hl
      have hrev' : r.revFlow = true := by rw [← hfr.1]; exact hrev
      obtain ⟨ha, fr', hb, hc, hd⟩ := hp j r hl hrev'
      refine ⟨by rw [hfr.2]; exact ha, ?_⟩
      rw [lookupF_updF]
      by_cases hrj : revKey j = j
      · rw [if_pos hrj, hl, Option.map_some']
        have hfr'r : fr' = r := by
          rw [hrj] at hb
          rw [hl] at hb
          injection hb with hb
          exact hb.symm
        subst hfr'r
        exact ⟨f fr', rfl, by rw [hfr.1]; exact hc, by rw [hfr.2]; exact hd⟩
      · rw [if_neg hrj]
        exact ⟨fr', hb, hc, hd⟩
  · rw [if_neg hjk] at hj
    obtain ⟨ha, fr', hb, hc, hd⟩ := hp j g hj hrev
    refine ⟨ha, ?_⟩
    rw [lookupF_updF]
    by_cases hrk : revKey j = k
    · rw [if_pos hrk, ← hrk, hb, Option.map_some']
      have hfr := hf fr' (hrk ▸ hb)
      exact ⟨f fr', rfl, by rw [hfr.1]; exact hc, by rw [hfr.2]; exact hd⟩
    · rw [if_neg hrk]
      exact ⟨fr', hb, hc, hd⟩

/-- Inserting a fresh, unpaired record preserves peer consistency. -/
theorem pairedOK_cons (tbl : List (FlowKey × flowDly)) (k : FlowKey) (r : flowDly)
    (hnot : lookupF tbl k = none) (hrev : r.revFlow = false)
    (hp : pairedOK tbl) : pairedOK ((k, r) :: tbl) := by
  intro j g hj hgrev
  rw [lookupF_cons] at hj
  by_cases hkj : k = j
  · rw [if_pos hkj] at hj
    injection hj with hj
    subst hj
    rw [hrev] at hgrev
    cases hgrev
  · rw [if_neg hkj] at hj
    obtain ⟨ha, fr', hb, hc, hd⟩ := hp j g hj hgrev
    refine ⟨ha, ?_⟩
    rw [lookupF_cons]
    have hkr : ¬ (k = revKey j) := by
      intro he
      rw [← he] at hb
      rw [hnot] at hb
      cases hb
    rw [if_neg hkr]
    exact ⟨fr', hb, hc, hd⟩

/-- Creating a flow and cross-pairing it with the present reverse flow
(the source order: emplace, then set `rfr->revFlow/rfp`, then
`fr->revFlow/rfp`) preserves peer consistency.  Covers the degenerate
self-paired case `revKey k = k`. -/
theorem pairedOK_pair (tbl : List (FlowKey × flowDly)) (k : FlowKey) (r : flowDly)
    (hnot : lookupF tbl k = none) (hp : pairedOK tbl)
    (hsome : (lookupF ((k, r) :: tbl) (revKey k)).isSome = true) :
    pairedOK (updF (updF ((k, r) :: tbl) (revKey k)
        (fun q => { q with revFlow := true, rfp := some k }))
      k (fun q => { q with revFlow := true, rfp := some (revKey k) })) := by
  intro j g hj hgrev
  by_cases hjk : j = k
  · subst hjk
    by_cases hself : j = revKey j
    · simp only [lookupF_updF, lookupF_cons, ← hself, if_pos rfl, Option.map_some'] at hj
      injection hj with hj
      subst hj
      refine ⟨by simp [← hself], ?_⟩
      simp only [lookupF_updF, lookupF_cons, ← hself, if_pos rfl, Option.map_some']
      exact ⟨_, rfl, by simp, by simp⟩
    · have h2 : ¬ (revKey j = j) := fun h => hself h.symm
      simp only [lookupF_updF, lookupF_cons, if_pos rfl, if_neg hself, if_neg h2,
        Option.map_some'] at hj
      injection hj with hj
      subst hj
      refine ⟨by simp, ?_⟩
      simp only [lookupF_updF, lookupF_cons, if_pos rfl, if_neg hself, if_neg h2] at hsome ⊢
      cases hq : lookupF tbl (revKey j) with
      | none => simp_all
      | some q =>
        simp only [if_true, Option.map_some']
        exact ⟨_, rfl, by simp, by simp⟩
  · by_cases hjr : j = revKey k
    · have hkr : ¬ (k = revKey k) := fun h => hjk (by rw [hjr, ← h])
      have hrk : ¬ (revKey k = k) := fun h => hkr h.symm
      subst hjr
      simp only [lookupF_updF, lookupF_cons, if_pos rfl, if_neg hrk, if_neg hkr,
        Option.map_some'] at hj
      cases hq : lookupF tbl (revKey k) with
      | none => rw [hq] at hj; exact absurd hj (by simp)
      | some q =>
        rw [hq, Option.map_some'] at hj
        injection hj with hj
        subst hj
        refine ⟨by simp [revKey_revKey], ?_⟩
        simp only [revKey_revKey, lookupF_updF, lookupF_cons, if_pos rfl, if_neg hkr,
          Option.map_some']
        exact ⟨_, rfl, by simp, by simp⟩
    · have hkj : ¬ (k = j) := fun h => hjk h.symm
      simp only [lookupF_updF, lookupF_cons, if_neg hjk, if_neg hjr, if_neg hkj] at hj
      obtain ⟨ha, fr', hb, hc, hd⟩ := hp j g hj hgrev
      refine ⟨ha, ?_⟩
      have h1 : ¬ (revKey j = k) := by
        intro h
        rw [h, hnot] at hb
        cases hb
      have h2 : ¬ (revKey j = revKey k) := fun h => hjk (revKey_inj h)
      have h3 : ¬ (k = revKey j) := fun h => h1 h.symm
      simp only [lookupF_updF, lookupF_cons, if_neg h1, if_neg h2, if_neg h3]
      exact ⟨fr', hb, hc, hd⟩

theorem computeTicks_revFlow (fr : flowDly) (tm : ℚ) (ts : ℤ) :
    (computeTicks fr tm ts).1.revFlow = fr.revFlow := by
  simp only [computeTicks]
  repeat' split
  all_goals simp

theorem computeTicks_rfp (fr : flowDly) (tm : ℚ) (ts : ℤ) :
    (computeTicks fr tm ts).1.rfp = fr.rfp := by
  simp only [computeTicks]
  repeat' split
  all_goals simp

theorem computeDV_revFlow (fr : flowDly) (peer : Option flowDly) (pi : pktInfo) :
    (computeDV fr peer pi).1.revFlow = fr.revFlow := by
  simp only [computeDV]
  repeat' split
  all_goals simp [computeTicks_revFlow]

theorem computeDV_rfp (fr : flowDly) (peer : Option flowDly) (pi : pktInfo) :
    (computeDV fr peer pi).1.rfp = fr.rfp := by
  simp only [computeDV]
  repeat' split
  all_goals simp [computeTicks_rfp]

/-- The write-back at the end of `flowTail` preserves peer
consistency: none of the per-packet record updates touch
`revFlow`/`rfp`. -/
theorem flowTail_pairedOK (cfg : Config) (s : DState) (p : Packet) (fstr : FlowKey)
    (piTs : ℤ) (capTm : ℚ) (hp : pairedOK s.flows) :
    pairedOK (flowTail cfg s p fstr piTs capTm).flows := by
  simp only [flowTail]
  cases hl : lookupF s.flows fstr with
  | none => exact hp
  | some fr0 =>
    simp only []
    refine ?_
    apply pairedOK_upd _ _ _ ?_ hp
    intro r hr
    rw [hl] at hr
    injection hr with hr
    subst hr
    constructor
    · repeat' split
      all_goals simp [computeDV_revFlow]
    · repeat' split
      all_goals simp [computeDV_rfp]

/-- Preservation: `processPacket` preserves peer consistency. -/
theorem processPacket_pairedOK (cfg : Config) (s : DState) (p : Packet)
    (hp : pairedOK s.flows) : pairedOK (processPacket cfg s p).flows := by
  simp only [processPacket]
  split
  · exact hp
  · by_cases hoff : s.offTm < 0
    all_goals simp only [hoff, if_true, if_false]
    all_goals
      cases hl : lookupF s.flows (p.src, p.dst) with
      | none =>
        simp only [hl]
        split
        · exact hp
        · split
          · rename_i hsome
            apply flowTail_pairedOK
            simp only []
            exact pairedOK_pair s.flows (p.src, p.dst) _ hl hp hsome
          · apply flowTail_pairedOK
            simp only []
            exact pairedOK_cons s.flows (p.src, p.dst) _ hl (by rfl) hp
      | some fr0 =>
        simp only [hl]
        apply flowTail_pairedOK
        simp only []
        exact pairedOK_upd s.flows (p.src, p.dst) _ (fun r _ => ⟨rfl, rfl⟩) hp

/-- One `cleanUp` eviction preserves peer consistency. -/
theorem cleanStep_pairedOK (cfg : Config) (n : ℚ) (st : List (FlowKey × flowDly) × ℤ)
    (k : FlowKey) (hp : pairedOK st.1) : pairedOK (cleanStep cfg n st k).1 := by
  simp only [cleanStep]
  cases hl : lookupF st.1 k with
  | none => exact hp
  | some fr =>
    simp only []
    split
    · cases hfr : fr.revFlow with
      | true =>
        obtain ⟨hrfp, q, hq, hqrev, hqrfp⟩ := hp k fr hl hfr
        simp only [hfr, eq_self_iff_true, if_true, hrfp]
        intro j g hj hgrev
        rw [lookupF_eraseF] at hj
        by_cases hjk : j = k
        · rw [if_pos hjk] at hj
          cases hj
        · rw [if_neg hjk, lookupF_updF] at hj
          by_cases hjr : j = revKey k
          · rw [if_pos hjr] at hj
            rw [hq, Option.map_some'] at hj
            injection hj with hj
            subst hj
            simp [clearPeerLink] at hgrev
          · rw [if_neg hjr] at hj
            obtain ⟨ha, fr2, hb, hc, hd⟩ := hp j g hj hgrev
            refine ⟨ha, ?_⟩
            have h1 : ¬ (revKey j = k) := by
              intro h
              rw [h, hl] at hb
              injection hb with hb
              subst hb
              rw [hrfp] at hd
              injection hd with hd
              exact hjr hd.symm
            have h2 : ¬ (revKey j = revKey k) := fun h => hjk (revKey_inj h)
            rw [lookupF_eraseF, if_neg h1, lookupF_updF, if_neg h2]
            exact ⟨fr2, hb, hc, hd⟩
      | false =>
        simp only [hfr, Bool.false_eq_true, if_false]
        intro j g hj hgrev
        rw [lookupF_eraseF] at hj
        by_cases hjk : j = k
        · rw [if_pos hjk] at hj
          cases hj
        · rw [if_neg hjk] at hj
          obtain ⟨ha, fr2, hb, hc, hd⟩ := hp j g hj hgrev
          refine ⟨ha, ?_⟩
          have h1 : ¬ (revKey j = k) := by
            intro h
            rw [h, hl] at hb
            injection hb with hb
            subst hb
            rw [hfr] at hc
            cases hc
          rw [lookupF_eraseF, if_neg h1]
          exact ⟨fr2, hb, hc, hd⟩
    · exact hp

theorem foldl_cleanStep_pairedOK (cfg : Config) (n : ℚ) (ks : List FlowKey) :
    ∀ st : List (FlowKey × flowDly) × ℤ, pairedOK st.1 →
      pairedOK (ks.foldl (cleanStep cfg n) st).1 := by
  induction ks with
  | nil => intro st h; exact h
  | cons k ks ih =>
    intro st h
    exact ih _ (cleanStep_pairedOK cfg n st k h)

theorem cleanUp_pairedOK (cfg : Config) (s : DState) (n : ℚ)
    (hp : pairedOK s.flows) : pairedOK (cleanUp cfg s n).flows := by
  simp only [cleanUp]
  exact foldl_cleanStep_pairedOK cfg n _ _ hp

/-- C6 (confirmed): after any sequence of processed packets and
cleanup sweeps starting from empty tables, every paired FlowRecord
`f` has a non-null peer link naming the reverse key, which resolves
to a record `f'` present in the table with `f'.paired = true` and
`f'.peer = f`; eviction of an idle flow clears its peer's pairing
before the record is destroyed (see `cleanStep`), which is what keeps
the invariant across sweeps. -/
theorem flow_pairing_consistent (cfg : Config) (evs : List Ev) :
    pairedOK (runEv cfg dInit evs).flows := by
  have main : ∀ (es : List Ev) (s : DState), pairedOK s.flows →
      pairedOK (runEv cfg s es).flows := by
    intro es
    induction es with
    | nil => intro s h; exact h
    | cons e es ih =>
      intro s h
      cases e with
      | pkt p => exact ih _ (processPacket_pairedOK cfg s p h)
      | sweep n => exact ih _ (cleanUp_pairedOK cfg s n h)
  exact main evs dInit pairedOK_nil

def pktW1 : Packet :=
  { secs := 0, usecs := 0, src := "a", dst := "b", dstHst := "b", ts := 1, ecr := 1 }

def pktW2 : Packet :=
  { secs := 0, usecs := 0, src := "b", dst := "a", dstHst := "a", ts := 1, ecr := 1 }

def flowsW : List (FlowKey × flowDly) :=
  (runEv cfgDefault dInit [Ev.pkt pktW1, Ev.pkt pktW2]).flows

def keyW : FlowKey := ("b", "a")

def frW : flowDly := (lookupF flowsW keyW).getD flowDlyInit

set_option maxRecDepth 8000 in
/-- Witness for C6 at a concrete two-packet run that pairs two flows:
the second packet's flow is paired, and the theorem yields its peer
facts. -/
theorem flow_pairing_consistent_witness :
    frW.rfp = some (revKey keyW) ∧
    ∃ fr', lookupF flowsW (revKey keyW) = some fr' ∧
      fr'.revFlow = true ∧ fr'.rfp = some keyW :=
  flow_pairing_consistent cfgDefault [Ev.pkt pktW1, Ev.pkt pktW2] keyW frW
    (by with_unfolding_all rfl) (by with_unfolding_all rfl)

/-! ## Claim C7: flow-table capacity -/

theorem eraseF_eq_self_of_none {κ α : Type} [DecidableEq κ] (tbl : List (κ × α)) (k : κ)
    (h : lookupF tbl k = none) : eraseF tbl k = tbl := by
  induction tbl with
  | nil => rfl
  | cons e l ih =>
    rw [lookupF_cons] at h
    by_cases he : e.1 = k
    · rw [if_pos he] at h
      cases h
    · rw [if_neg he] at h
      rw [show eraseF (e :: l) k = e :: eraseF l k by simp [eraseF, List.filter_cons, he]]
      rw [ih h]

theorem length_eraseF_of_nodup {κ α : Type} [DecidableEq κ] (tbl : List (κ × α)) (k : κ)
    (hnd : (tbl.map Prod.fst).Nodup) (hl : (lookupF tbl k).isSome = true) :
    (eraseF tbl k).length + 1 = tbl.length := by
  induction tbl with
  | nil => cases hl
  | cons e l ih =>
    rw [List.map_cons, List.nodup_cons] at hnd
    by_cases he : e.1 = k
    · have hnone : lookupF l k = none := by
        rw [lookupF_eq_none_iff]
        rw [← he]
        exact hnd.1
      rw [show eraseF (e :: l) k = eraseF l k by simp [eraseF, List.filter_cons, he]]
      rw [eraseF_eq_self_of_none l k hnone]
      simp
    · rw [lookupF_cons, if_neg he] at hl
      rw [show eraseF (e :: l) k = e :: eraseF l k by simp [eraseF, List.filter_cons, he]]
      simp only [List.length_cons]
      rw [ih hnd.2 hl]

theorem keys_eraseF_sublist {κ α : Type} [DecidableEq κ] (tbl : List (κ × α)) (k : κ) :
    ((eraseF tbl k).map Prod.fst).Sublist (tbl.map Prod.fst) :=
  (List.filter_sublist tbl).map Prod.fst

/-- The flow-table bookkeeping invariant: keys are unique, `flowCnt`
mirrors the table size, and the size never exceeds `maxFlows + 1`. -/
def tblInv (cfg : Config) (tbl : List (FlowKey × flowDly)) (cnt : ℤ) : Prop :=
  (tbl.map Prod.fst).Nodup ∧ cnt = tbl.length ∧ ((tbl.length : ℤ) ≤ cfg.maxFlows + 1)

theorem flowTail_flows_shape (cfg : Config) (s : DState) (p : Packet) (fstr : FlowKey)
    (piTs : ℤ) (capTm : ℚ) :
    (flowTail cfg s p fstr piTs capTm).flows.map Prod.fst = s.flows.map Prod.fst ∧
    (flowTail cfg s p fstr piTs capTm).flows.length = s.flows.length ∧
    (flowTail cfg s p fstr piTs capTm).flowCnt = s.flowCnt := by
  simp only [flowTail]
  cases hl : lookupF s.flows fstr with
  | none => exact ⟨rfl, rfl, rfl⟩
  | some fr0 => simp [setF]

/-- Preservation: `processPacket` preserves the bookkeeping invariant. -/
theorem processPacket_tblInv (cfg : Config) (s : DState) (p : Packet)
    (h : tblInv cfg s.flows s.flowCnt) :
    tblInv cfg (processPacket cfg s p).flows (processPacket cfg s p).flowCnt := by
  obtain ⟨hnd, hcnt, hbound⟩ := h
  simp only [processPacket]
  split
  · exact ⟨hnd, hcnt, hbound⟩
  · by_cases hoff : s.offTm < 0
    all_goals simp only [hoff, if_true, if_false]
    all_goals
      cases hl : lookupF s.flows (p.src, p.dst) with
      | none =>
        simp only [hl]
        split
        · exact ⟨hnd, hcnt, hbound⟩
        · rename_i hcap
          have hnew : ((p.src, p.dst)) ∉ s.flows.map Prod.fst :=
            (lookupF_eq_none_iff s.flows (p.src, p.dst)).mp hl
          have hlen : (((p.src, p.dst) : FlowKey) :: s.flows.map Prod.fst).Nodup :=
            List.nodup_cons.mpr ⟨hnew, hnd⟩
          have hb2 : ((s.flows.length + 1 : ℕ) : ℤ) ≤ cfg.maxFlows + 1 := by
            push_cast
            rw [not_lt] at hcap
            rw [hcnt] at hcap
            omega
          split
          · obtain ⟨hk, hlen', hc⟩ := flowTail_flows_shape cfg _ p (p.src, p.dst) _ _
            refine ⟨?_, ?_, ?_⟩
            · rw [hk]
              simpa using hlen
            · rw [hc, hlen']
              simp only [length_updF, List.length_cons]
              push_cast
              omega
            · rw [hlen']
              simpa using hb2
          · obtain ⟨hk, hlen', hc⟩ := flowTail_flows_shape cfg _ p (p.src, p.dst) _ _
            refine ⟨?_, ?_, ?_⟩
            · rw [hk]
              simpa using hlen
            · rw [hc, hlen']
              simp only [length_updF, List.length_cons]
              push_cast
              omega
            · rw [hlen']
              simpa using hb2
      | some fr0 =>
        simp only [hl]
        obtain ⟨hk, hlen', hc⟩ := flowTail_flows_shape cfg _ p (p.src, p.dst) _ _
        refine ⟨?_, ?_, ?_⟩
        · rw [hk]
          simpa using hnd
        · rw [hc, hlen']
          simpa using hcnt
        · rw [hlen']
          simpa using hbound

theorem cleanStep_tblInv (cfg : Config) (n : ℚ) (st : List (FlowKey × flowDly) × ℤ)
    (k : FlowKey) (h : tblInv cfg st.1 st.2) :
    tblInv cfg (cleanStep cfg n st k).1 (cleanStep cfg n st k).2 := by
  obtain ⟨hnd, hcnt, hbound⟩ := h
  simp only [cleanStep]
  cases hl : lookupF st.1 k with
  | none => exact ⟨hnd, hcnt, hbound⟩
  | some fr =>
    simp only []
    split
    · have main : ∀ tbl' : List (FlowKey × flowDly),
          tbl'.map Prod.fst = st.1.map Prod.fst →
          tblInv cfg (eraseF tbl' k) (st.2 - 1) := by
        intro tbl' hk
        have hnd' : (tbl'.map Prod.fst).Nodup := by rw [hk]; exact hnd
        have hlen : tbl'.length = st.1.length := by
          have := congrArg List.length hk
          simpa using this
        have hsome : (lookupF tbl' k).isSome = true := by
          have hmem : k ∈ tbl'.map Prod.fst := by
            rw [hk]
            by_contra hmem
            rw [← lookupF_eq_none_iff] at hmem
            rw [hmem] at hl
            cases hl
          cases hq : lookupF tbl' k with
          | none =>
            rw [lookupF_eq_none_iff] at hq
            exact absurd hmem hq
          | some q => rfl
        have hle := length_eraseF_of_nodup tbl' k hnd' hsome
        refine ⟨List.Nodup.sublist (keys_eraseF_sublist tbl' k) hnd', ?_, ?_⟩
        · omega
        · omega
      split
      · split
        · exact main _ (keys_updF st.1 _ _)
        · exact main _ rfl
      · exact main _ rfl
    · exact ⟨hnd, hcnt, hbound⟩

theorem foldl_cleanStep_tblInv (cfg : Config) (n : ℚ) (ks : List FlowKey) :
    ∀ st : List (FlowKey × flowDly) × ℤ, tblInv cfg st.1 st.2 →
      tblInv cfg (ks.foldl (cleanStep cfg n) st).1 (ks.foldl (cleanStep cfg n) st).2 := by
  induction ks with
  | nil => intro st h; exact h
  | cons k ks ih =>
    intro st h
    exact ih _ (cleanStep_tblInv cfg n st k h)

theorem cleanUp_tblInv (cfg : Config) (s : DState) (n : ℚ)
    (h : tblInv cfg s.flows s.flowCnt) :
    tblInv cfg (cleanUp cfg s n).flows (cleanUp cfg s n).flowCnt := by
  simp only [cleanUp]
  exact foldl_cleanStep_tblInv cfg n _ _ h

/-- At over-capacity, a packet of a new (absent) flow key that passes
the timestamp checks is silently dropped: flow table, match table and
output are all unchanged (only the packet counter and the capture
clock advance). -/
theorem processPacket_drop (cfg : Config) (s : DState) (p : Packet)
    (hr : rejectTS p.ts p.ecr (tcpFlags p) = false)
    (hl : lookupF s.flows (p.src, p.dst) = none)
    (hc : cfg.maxFlows < s.flowCnt) :
    (processPacket cfg s p).flows = s.flows ∧
    (processPacket cfg s p).tsTbl = s.tsTbl ∧
    (processPacket cfg s p).emitted = s.emitted := by
  simp only [processPacket, hr, hl, hc]
  simp

/-- C7 (corrected): the flow table can hold up to `maxFlows + 1`
flows (the guard `flowCnt > maxFlows` is checked before the insertion
that would make the count `maxFlows + 1`), and once that bound is
reached every packet of a new flow key is silently dropped with no
change to the flow table, match table or output. -/
theorem capacity_bounds (cfg : Config) (hmax : 0 ≤ cfg.maxFlows) (evs : List Ev) :
    (((runEv cfg dInit evs).flows.length : ℤ) ≤ cfg.maxFlows + 1) ∧
    ∀ p, cfg.maxFlows < (runEv cfg dInit evs).flowCnt →
      rejectTS p.ts p.ecr (tcpFlags p) = false →
      lookupF (runEv cfg dInit evs).flows (p.src, p.dst) = none →
      (processPacket cfg (runEv cfg dInit evs) p).flows = (runEv cfg dInit evs).flows ∧
      (processPacket cfg (runEv cfg dInit evs) p).tsTbl = (runEv cfg dInit evs).tsTbl ∧
      (processPacket cfg (runEv cfg dInit evs) p).emitted = (runEv cfg dInit evs).emitted := by
  have main : ∀ (es : List Ev) (s : DState), tblInv cfg s.flows s.flowCnt →
      tblInv cfg (runEv cfg s es).flows (runEv cfg s es).flowCnt := by
    intro es
    induction es with
    | nil => intro s h; exact h
    | cons e es ih =>
      intro s h
      cases e with
      | pkt p => exact ih _ (processPacket_tblInv cfg s p h)
      | sweep n => exact ih _ (cleanUp_tblInv cfg s n h)
  have hinv := main evs dInit ⟨List.nodup_nil, rfl, by have h0 : dInit.flows.length = 0 := rfl; omega⟩
  exact ⟨hinv.2.2, fun p hc hr hl => processPacket_drop cfg _ p hr hl hc⟩

def cfgZero : Config := { maxFlows := 0 }

/-- C7 counterexample: with capacity `maxFlows`, one accepted packet
already yields `maxFlows + 1` flows in the table (here `maxFlows = 0`
and the table holds 1 flow), so "the number of flows never exceeds
maxFlows" is false: the guard `flowCnt > maxFlows` runs before the
insertion. -/
theorem capacity_exceeded_by_one :
    ((runEv cfgZero dInit [Ev.pkt pktA]).flows.length : ℤ) = cfgZero.maxFlows + 1 ∧
    ¬ (((runEv cfgZero dInit [Ev.pkt pktA]).flows.length : ℤ) ≤ cfgZero.maxFlows) := by
  refine ⟨?_, ?_⟩ <;> with_unfolding_all decide

/-- Witness for C7 at `maxFlows = 0`: after one packet the table is
at `maxFlows + 1` and a packet of a fresh key (B) is dropped with all
three stores unchanged. -/
theorem capacity_bounds_witness :
    (((runEv cfgZero dInit [Ev.pkt pktA]).flows.length : ℤ) ≤ cfgZero.maxFlows + 1) ∧
    (processPacket cfgZero (runEv cfgZero dInit [Ev.pkt pktA]) pktB).flows =
      (runEv cfgZero dInit [Ev.pkt pktA]).flows ∧
    (processPacket cfgZero (runEv cfgZero dInit [Ev.pkt pktA]) pktB).tsTbl =
      (runEv cfgZero dInit [Ev.pkt pktA]).tsTbl ∧
    (processPacket cfgZero (runEv cfgZero dInit [Ev.pkt pktA]) pktB).emitted =
      (runEv cfgZero dInit [Ev.pkt pktA]).emitted :=
  have h := capacity_bounds cfgZero (by decide) [Ev.pkt pktA]
  ⟨h.1, h.2 pktB (by with_unfolding_all decide) (by decide)
    (by with_unfolding_all decide)⟩

/-- Iterated `addSample` calls. -/
def runSamples (mm : movingMin) : List (ℚ × ℤ) → movingMin
  | [] => mm
  | c :: cs => runSamples (addSample mm c.1 c.2) cs

theorem addSample_intv (mm : movingMin) (v : ℚ) (t : ℤ) :
    (addSample mm v t).intv = mm.intv := by
  simp only [addSample]
  repeat' split
  all_goals simp

/-- C10 (confirmed): for any sequence of `addSample(v, t)` calls with
non-decreasing `t` starting from an empty list, after every call the
deque is non-empty, its values strictly increase front to back, every
stored time `t'` satisfies `t' + I ≥ t` (and `t' ≤ t`), and
`intervalMin` — the front entry — is minimal among all retained
values.  Stated for the call sequence `cs ++ [c]`, i.e. after the
call `c` of an arbitrary sequence; the start state may also be any
state already satisfying the invariant at an earlier time `t₀`. -/
theorem mm_invariant_after_every_call (mm : movingMin) :
    ∀ (cs : List (ℚ × ℤ)) (c : ℚ × ℤ), 0 ≤ mm.intv →
      List.Chain' (fun a b => a.2 ≤ b.2) (cs ++ [c]) →
      ∀ t₀ : ℤ,
      (mm.minList = [] ∨
        (mmInv mm.intv t₀ mm.minList ∧ t₀ ≤ ((cs ++ [c]).headD c).2)) →
      mmInv mm.intv c.2 (runSamples mm (cs ++ [c])).minList ∧
        ∀ p ∈ (runSamples mm (cs ++ [c])).minList,
          (intervalMin (runSamples mm (cs ++ [c]))).1 ≤ p.1 := by
  intro cs
  induction cs generalizing mm with
  | nil =>
    intro c hI hchain t₀ hstart
    simp only [List.nil_append, runSamples] at *
    exact addSample_mmInv mm c.1 c.2 t₀ hI hstart
  | cons c' cs ih =>
    intro c hI hchain t₀ hstart
    simp only [List.cons_append, runSamples] at *
    have hchain' := (List.chain'_cons'.mp hchain).2
    have hrel := (List.chain'_cons'.mp hchain).1
    have hhead : c'.2 ≤ ((cs ++ [c]).headD c).2 := by
      cases cs with
      | nil => exact hrel c (by simp)
      | cons d ds => exact hrel d (by simp)
    have hstep := addSample_mmInv mm c'.1 c'.2 t₀ hI (by
      rcases hstart with h0 | ⟨hinv, hle⟩
      · exact Or.inl h0
      · refine Or.inr ⟨hinv, ?_⟩
        have : t₀ ≤ ((c' :: (cs ++ [c])).headD c).2 := hle
        simpa using this)
    have hI' : 0 ≤ (addSample mm c'.1 c'.2).intv := by
      rw [addSample_intv]
      exact hI
    have hmain := ih (addSample mm c'.1 c'.2) c hI' hchain' c'.2 (by
      refine Or.inr ⟨?_, hhead⟩
      rw [addSample_intv]
      exact hstep.1)
    rw [addSample_intv] at hmain
    exact hmain

def mmFD : movingMin := flowDlyInit.mm

/-- Witness for C10: two samples at increasing times through the
MovingMin instance `flowDly` constructs. -/
theorem mm_invariant_after_every_call_witness :
    mmInv mmFD.intv 60 (runSamples mmFD [(5, 10), (3, 60)]).minList ∧
      ∀ p ∈ (runSamples mmFD [(5, 10), (3, 60)]).minList,
        (intervalMin (runSamples mmFD [(5, 10), (3, 60)])).1 ≤ p.1 :=
  mm_invariant_after_every_call mmFD [(5, 10)] (3, 60) (by decide)
    (by simp [List.chain'_cons]) 0 (Or.inl rfl)
